import Mathlib

/-!
Verification of the Aadhaar enrolment dashboard's data pipeline
(`app_enrolment.py`): the Indian-digit number formatter, the loader's
date handling, the geographic filter, and the six aggregation views
computed from the filtered table, together with the halved grand-total
headline.

The pandas dataframe is embedded as a list of rows plus the list of
column names present in the source CSVs.  Age-bucket counts are natural
numbers (enrolment counts).  `groupby` is embedded as: sorted
deduplicated keys, and a filtered sum per key (pandas sorts group keys
ascending by default).  `melt` is embedded as one block per value
column, each block listing all grouped rows in key order.
-/

namespace Enrol

/-- A calendar date, the result of a successful `pd.to_datetime` parse. -/
structure Date where
  year : Nat
  month : Nat
  day : Nat
deriving DecidableEq, Repr

/-- Lexicographic order on dates (year, then month, then day), the order
pandas uses when grouping/sorting by a datetime column. -/
def Date.dle (a b : Date) : Prop :=
  a.year < b.year ∨ (a.year = b.year ∧
    (a.month < b.month ∨ (a.month = b.month ∧ a.day ≤ b.day)))

/-- Strict version of `Date.dle`. -/
def Date.dlt (a b : Date) : Prop :=
  Date.dle a b ∧ a ≠ b

instance : DecidableRel Date.dle := fun a b => by
  unfold Date.dle; infer_instance

instance : DecidableRel Date.dlt := fun a b => by
  unfold Date.dlt; infer_instance

instance : IsTotal Date Date.dle :=
  ⟨fun a b => by unfold Date.dle; omega⟩

instance : IsTrans Date Date.dle :=
  ⟨fun a b c hab hbc => by unfold Date.dle at *; omega⟩

/-- Zero-pad a number below 100 to two digits, as Python's `zfill(2)`. -/
def pad2 (n : Nat) : String :=
  if n < 10 then "0" ++ toString n else toString n

/-- `df["date"].dt.to_period("M").astype(str)`: the year-month of a date as
a sortable string such as `"2023-01"`. -/
def monthKey (d : Date) : String :=
  toString d.year ++ "-" ++ pad2 d.month

/-- Python's `s.lstrip(c)` for a single-character strip set. -/
def lstripChar (c : Char) (s : String) : String :=
  String.mk (s.data.dropWhile (fun x => x = c))

/-- The last three characters of `str(num)` for `num ≥ 1000`, i.e. the last
three digits zero-padded (`s[-3:]`). -/
def pad3 (n : Nat) : String :=
  if n < 10 then "00" ++ toString n
  else if n < 100 then "0" ++ toString n
  else toString n

/-- The `while num > 0` loop of `format_indian`: peel two digits at a time,
prepending each group and a comma. -/
def indianLoop (n : Nat) (result : String) : String :=
  if h : 0 < n then
    indianLoop (n / 100) (pad2 (n % 100) ++ "," ++ result)
  else result
termination_by n
decreasing_by
  exact Nat.div_lt_self h (by norm_num)

/-- `format_indian` from `app_enrolment.py`: format in the Indian numbering
system.  Numbers below 1000 are returned as plain decimal; otherwise the
last three digits form the rightmost group (`s[-3:]`, numerically
`num % 1000` zero-padded to three digits, with `num // 1000` remaining),
two-digit groups are peeled from the remainder, and leading zeros then a
stray leading comma are stripped. -/
def format_indian (num : Nat) : String :=
  if num < 1000 then toString num
  else
    lstripChar ','
      (lstripChar '0' (indianLoop (num / 1000) (pad3 (num % 1000))))

/-- `format_age_group` from `app_enrolment.py`: map a column name to a
display label through the fixed dictionary, with identity fallback. -/
def format_age_group (col_name : String) : String :=
  if col_name = "age_0_5" then "Age 0-5"
  else if col_name = "age_5_17" then "Age 5-17"
  else if col_name = "age_18_greater" then "Age 18+"
  else if col_name = "bio_age_5_17" then "Age 5-17"
  else if col_name = "bio_age_17_" then "Age 17+"
  else if col_name = "demo_age_5_17" then "Age 5-17"
  else if col_name = "demo_age_17_" then "Age 17+"
  else col_name

/-- One row of the concatenated CSV data before date validation.
`rawDate` is the outcome of `pd.to_datetime(..., errors='coerce')` on the
row's `date` cell: `none` is a coerced `NaT` (unparseable date).  The three
canonical age buckets are explicit fields; any other-named numeric column
lives in `extra`. -/
structure RawRow where
  rawDate : Option Date
  state : String
  district : String
  pincode : String
  age_0_5 : Nat
  age_5_17 : Nat
  age_18_greater : Nat
  extra : List (String × Nat)
deriving DecidableEq, Repr

/-- One row of the unified table after `load_data`: the date parsed
successfully and `month` has been derived. -/
structure Row where
  date : Date
  month : String
  state : String
  district : String
  pincode : String
  age_0_5 : Nat
  age_5_17 : Nat
  age_18_greater : Nat
  extra : List (String × Nat)
deriving DecidableEq, Repr

/-- Date-validation tail of `load_data` (after `pd.concat`):
`pd.to_datetime(errors='coerce')` followed by `dropna(subset=['date'])`
drops every row whose date failed to parse, and
`df["date"].dt.to_period("M").astype(str)` derives `month`. -/
def load_data (raw : List RawRow) : List Row :=
  raw.filterMap (fun r =>
    r.rawDate.map (fun d =>
      { date := d, month := monthKey d, state := r.state,
        district := r.district, pincode := r.pincode,
        age_0_5 := r.age_0_5, age_5_17 := r.age_5_17,
        age_18_greater := r.age_18_greater, extra := r.extra }))

/-- A dataframe: the rows plus the set of column names the CSVs supplied
(`df.columns`), which governs which age buckets are available. -/
structure Table where
  cols : List String
  rows : List Row
deriving DecidableEq, Repr

/-- The analysis level selected in the sidebar. -/
inductive Level where
  | National
  | State
  | District
deriving DecidableEq, Repr

/-- The filter block of `app_enrolment.py` (lines 134-146): `National`
keeps `df` unchanged; `State` keeps rows with the selected state;
`District` keeps rows with the selected state and district. -/
def df_region (t : Table) (level : Level) (state district : String) :
    Table :=
  match level with
  | .National => t
  | .State => ⟨t.cols, t.rows.filter (fun r => r.state = state)⟩
  | .District =>
      ⟨t.cols,
        t.rows.filter (fun r => r.state = state ∧ r.district = district)⟩

/-- The canonical age-bucket columns (`age_cols` in the script). -/
def age_cols : List String :=
  ["age_0_5", "age_5_17", "age_18_greater"]

/-- `available_cols`: the canonical age columns actually present in the
table. -/
def availableCols (t : Table) : List String :=
  age_cols.filter (fun c => c ∈ t.cols)

/-- Column lookup on a row (`r[c]` for a numeric column `c`): the three
canonical buckets are struct fields, anything else comes from `extra`. -/
def ageVal (r : Row) (c : String) : Nat :=
  if c = "age_0_5" then r.age_0_5
  else if c = "age_5_17" then r.age_5_17
  else if c = "age_18_greater" then r.age_18_greater
  else ((r.extra.lookup c).getD 0)

/-- `df[cols].sum(axis=1)` on one row: the sum of the selected columns. -/
def rowSum (cols : List String) (r : Row) : Nat :=
  (cols.map (ageVal r)).sum

/-- One group's aggregate in a `groupby(key)[...].sum()`: sum `f` over the
rows whose key equals `k`. -/
def groupSum {κ : Type} [DecidableEq κ] (rows : List Row) (key : Row → κ)
    (k : κ) (f : Row → Nat) : Nat :=
  ((rows.filter (fun r => key r = k)).map f).sum

/-- Lexicographic order on strings through their character lists.  It
agrees with the standard string order (`strLe_iff` below) but, unlike
`String.ltb`, it evaluates by kernel reduction. -/
def strLe (a b : String) : Prop := a.data ≤ b.data

instance : DecidableRel strLe := fun a b => by
  unfold strLe; infer_instance

/-- The distinct `month` keys of the table, ascending — the index of any
`groupby("month")` (pandas sorts group keys). -/
def monthKeys (t : Table) : List String :=
  List.insertionSort strLe ((t.rows.map Row.month).dedup)

/-- The distinct values of a sub-territory key column, ascending — the
index of `groupby(sub_col)`. -/
def subKeys (t : Table) (key : Row → String) : List String :=
  List.insertionSort strLe ((t.rows.map key).dedup)

/-- The distinct `date` keys of the table, ascending — the index of
`groupby("date")`. -/
def dailyKeys (t : Table) : List Date :=
  List.insertionSort Date.dle ((t.rows.map Row.date).dedup)

/-- `df_region[available_cols].sum().sum()`: the sum of every available
age column over every row of the table. -/
def rawTotal (t : Table) : Nat :=
  (t.rows.map (rowSum (availableCols t))).sum

/-- `total_enrol_sum = int(df_region[available_cols].sum().sum() / 2)`:
the grand-total headline, the raw total halved and truncated. -/
def total_enrol_sum (t : Table) : Nat :=
  rawTotal t / 2

/-- View 1, `monthly_total`: `groupby("month")[available_cols].sum()
.sum(axis=1)`, one `(month, registrations)` row per month. -/
def monthly_total (t : Table) : List (String × Nat) :=
  (monthKeys t).map (fun m =>
    (m, groupSum t.rows Row.month m (rowSum (availableCols t))))

/-- View 2, `monthly_age`: `groupby("month")[available_cols].sum()` melted
to one `(month, age_group, registrations)` row per month/column pair, the
column name sent through `format_age_group`. -/
def monthly_age (t : Table) : List (String × String × Nat) :=
  (availableCols t).flatMap (fun c =>
    (monthKeys t).map (fun m =>
      (m, format_age_group c,
        groupSum t.rows Row.month m (fun r => ageVal r c))))

/-- The `sub_col` key: `"state" if level == "National" else "district"`. -/
def subColKey (level : Level) : Row → String :=
  match level with
  | .National => Row.state
  | _ => Row.district

/-- View 3, `sub_total`: `groupby(sub_col)[available_cols].sum()
.sum(axis=1)` then `sort_values("registrations", ascending=False)`. -/
def sub_total (t : Table) (key : Row → String) : List (String × Nat) :=
  List.insertionSort (fun a b => b.2 ≤ a.2)
    ((subKeys t key).map (fun s =>
      (s, groupSum t.rows key s (rowSum (availableCols t)))))

/-- View 4, `sub_age`: `groupby(sub_col)[available_cols].sum()` melted to
one `(sub_key, age_group, registrations)` row per key/column pair — note
the code applies no `sort_values` here. -/
def sub_age (t : Table) (key : Row → String) : List (String × String × Nat) :=
  (availableCols t).flatMap (fun c =>
    (subKeys t key).map (fun s =>
      (s, format_age_group c, groupSum t.rows key s (fun r => ageVal r c))))

/-- The per-date group sum feeding the cumulative view:
`groupby("date")[available_cols].sum().sum(axis=1)` at one date. -/
def perDateSum (t : Table) (d : Date) : Nat :=
  groupSum t.rows Row.date d (rowSum (availableCols t))

/-- `cumsum()` over a keyed series: replace each value by the running
total of the values so far (the accumulator starts at 0). -/
def cumPairs {κ : Type} : List (κ × Nat) → Nat → List (κ × Nat)
  | [], _ => []
  | (d, v) :: xs, acc => (d, acc + v) :: cumPairs xs (acc + v)

/-- View 5, `daily_total`: per-date sums over sorted distinct dates,
then `cumsum()`. -/
def daily_total (t : Table) : List (Date × Nat) :=
  cumPairs ((dailyKeys t).map (fun d => (d, perDateSum t d))) 0

/-- One month's row total in the percentage-share computation
(`monthly_pct.sum(axis=1)` at one month). -/
def monthTotal (t : Table) (m : String) : Nat :=
  groupSum t.rows Row.month m (rowSum (availableCols t))

/-- One cell of `monthly_pct.div(monthly_pct.sum(axis=1), axis=0) * 100`.
When the month total is 0 every numerator is 0 as well (counts are
non-negative), and float `0/0` is NaN, embedded as `none`; otherwise the
share is the exact rational `cell / total * 100`. -/
def pctShare (t : Table) (m c : String) : Option ℚ :=
  if monthTotal t m = 0 then none
  else
    some (((groupSum t.rows Row.month m (fun r => ageVal r c) : Nat) : ℚ)
      / ((monthTotal t m : Nat) : ℚ) * 100)

/-- View 6, `monthly_pct`: the per-cell shares melted to one
`(month, age_group, percentage)` row per month/column pair. -/
def monthly_pct (t : Table) : List (String × String × Option ℚ) :=
  (availableCols t).flatMap (fun c =>
    (monthKeys t).map (fun m => (m, format_age_group c, pctShare t m c)))

/-- The aggregation stage's only failure: no canonical age column is
present (`st.error("Required age columns not found in data"); st.stop()`). -/
inductive AggError where
  | MissingColumns
deriving DecidableEq, Repr

/-- The six views plus the headline, as one bundle. -/
structure AggViews where
  headline : Nat
  monthlyTotal : List (String × Nat)
  monthlyAge : List (String × String × Nat)
  subTotal : List (String × Nat)
  subAge : List (String × String × Nat)
  dailyTotal : List (Date × Nat)
  monthlyPct : List (String × String × Option ℚ)
deriving DecidableEq, Repr

/-- The whole aggregation stage: `st.stop()` with `MissingColumns` when no
canonical age column is present (lines 161-163), otherwise all six views
and the headline. -/
def aggregateAll (t : Table) (level : Level) : Except AggError AggViews :=
  if availableCols t = [] then .error .MissingColumns
  else
    .ok
      { headline := total_enrol_sum t
        monthlyTotal := monthly_total t
        monthlyAge := monthly_age t
        subTotal := sub_total t (subColKey level)
        subAge := sub_age t (subColKey level)
        dailyTotal := daily_total t
        monthlyPct := monthly_pct t }

/-- Rewrite every row's `extra` (other-named) columns; the canonical age
fields, keys and dates are untouched.  Used to state that other-named
columns never enter any aggregate. -/
def mapExtra (g : Row → List (String × Nat)) (t : Table) : Table :=
  ⟨t.cols, t.rows.map (fun r => { r with extra := g r })⟩

/-- Modelled from the spec: the sub-territory-by-age view as the spec's
ordering words describe it — rows ordered by the sub-territory-total
view's descending-by-total ordering, with age group as the secondary
category.  Compared against `sub_age`, which is what the code computes. -/
def sub_age_claimed (t : Table) (key : Row → String) :
    List (String × String × Nat) :=
  (sub_total t key).flatMap (fun p =>
    (availableCols t).map (fun c =>
      (p.1, format_age_group c,
        groupSum t.rows key p.1 (fun r => ageVal r c))))

/-! ### Order lemmas -/

/-- `strLe` is the standard string order. -/
theorem strLe_iff (a b : String) : strLe a b ↔ a ≤ b := by
  rw [String.le_iff_toList_le]
  rfl

instance : IsTotal String strLe :=
  ⟨fun a b => by rw [strLe_iff, strLe_iff]; exact le_total a b⟩

instance : IsTrans String strLe :=
  ⟨fun a b c h1 h2 => by rw [strLe_iff] at *; exact le_trans h1 h2⟩

/-! ### Formatter lemmas -/

/-- Unfolding equation of `indianLoop` as a plain conditional. -/
theorem indianLoop_eq (n : Nat) (result : String) :
    indianLoop n result =
      if 0 < n then indianLoop (n / 100) (pad2 (n % 100) ++ "," ++ result)
      else result := by
  rw [indianLoop, dite_eq_ite]

/-- `Nat.digitChar` never produces a comma. -/
theorem digitChar_ne_comma (n : Nat) : Nat.digitChar n ≠ ',' := by
  rcases n with _|_|_|_|_|_|_|_|_|_|_|_|_|_|_|_|n
  · decide
  · decide
  · decide
  · decide
  · decide
  · decide
  · decide
  · decide
  · decide
  · decide
  · decide
  · decide
  · decide
  · decide
  · decide
  · decide
  · simp only [Nat.digitChar]
    iterate 16 rw [if_neg (by omega)]
    decide

/-- `Nat.toDigitsCore` emits no comma beyond those already accumulated. -/
theorem toDigitsCore_ne_comma :
    ∀ (fuel n : Nat) (acc : List Char), (∀ ch ∈ acc, ch ≠ ',') →
      ∀ ch ∈ Nat.toDigitsCore 10 fuel n acc, ch ≠ ',' := by
  intro fuel
  induction fuel with
  | zero => intro n acc hacc; simpa [Nat.toDigitsCore] using hacc
  | succ fuel ih =>
    intro n acc hacc
    unfold Nat.toDigitsCore
    have hcons : ∀ ch ∈ Nat.digitChar (n % 10) :: acc, ch ≠ ',' := by
      intro ch hch
      rcases List.mem_cons.mp hch with h | h
      · subst h; exact digitChar_ne_comma _
      · exact hacc _ h
    show ∀ ch ∈ (if n / 10 = 0 then Nat.digitChar (n % 10) :: acc
        else Nat.toDigitsCore 10 fuel (n / 10) (Nat.digitChar (n % 10) :: acc)),
        ch ≠ ','
    split
    · exact hcons
    · exact ih _ _ hcons

/-- The decimal rendering of a natural number contains no comma. -/
theorem toString_nat_ne_comma (n : Nat) :
    ∀ ch ∈ (toString n).data, ch ≠ ',' := by
  show ∀ ch ∈ (Nat.repr n).data, ch ≠ ','
  unfold Nat.repr
  show ∀ ch ∈ Nat.toDigits 10 n, ch ≠ ','
  unfold Nat.toDigits
  exact toDigitsCore_ne_comma _ _ _ (by simp)

/-- After `dropWhile (· = c)` the head, if any, is not `c`. -/
theorem dropWhile_head_ne (c : Char) (l : List Char) :
    ∀ x, ((l.dropWhile (fun y => y = c)).head? = some x) → x ≠ c := by
  induction l with
  | nil => simp
  | cons a l ih =>
    by_cases h : a = c
    · simpa [List.dropWhile_cons, h] using ih
    · simp [List.dropWhile_cons, h]

/-! ### C9 -/

/-- C9: `format_indian` renders integers in the grouped-digit convention:
below 1000 it returns the plain decimal string, it maps 0, 999, 1000 and
12345678 to "0", "999", "1,000" and "1,23,45,678" respectively, and its
output never starts with the separator. -/
theorem format_indian_ok :
    (∀ n : Nat, n < 1000 → format_indian n = toString n)
    ∧ format_indian 0 = "0"
    ∧ format_indian 999 = "999"
    ∧ format_indian 1000 = "1,000"
    ∧ format_indian 12345678 = "1,23,45,678"
    ∧ ∀ (n : Nat) (x : Char),
        (format_indian n).data.head? = some x → x ≠ ',' := by
  refine ⟨?_, ?_, ?_, ?_, ?_, ?_⟩
  · intro n hn
    simp [format_indian, hn]
  · rfl
  · rfl
  · rw [format_indian]
    norm_num
    rw [indianLoop_eq]; norm_num
    rw [indianLoop_eq]; norm_num
    rfl
  · rw [format_indian]
    norm_num
    rw [indianLoop_eq]; norm_num
    rw [indianLoop_eq]; norm_num
    rw [indianLoop_eq]; norm_num
    rw [indianLoop_eq]; norm_num
    rfl
  · intro n x hx
    by_cases hn : n < 1000
    · have hform : format_indian n = toString n := by
        simp [format_indian, hn]
      rw [hform] at hx
      exact toString_nat_ne_comma n x (List.mem_of_mem_head? hx)
    · have hform : format_indian n =
          lstripChar ','
            (lstripChar '0' (indianLoop (n / 1000) (pad3 (n % 1000)))) := by
        simp [format_indian, hn]
      rw [hform] at hx
      exact dropWhile_head_ne ',' _ x hx

/-- Witness for C9: the quantified clauses applied at concrete inputs. -/
theorem format_indian_ok_witness :
    format_indian 7 = toString 7 ∧ '1' ≠ ',' := by
  constructor
  · exact format_indian_ok.1 7 (by norm_num)
  · exact format_indian_ok.2.2.2.2.2 1000 '1'
      (by rw [format_indian_ok.2.2.2.1]; rfl)

/-! ### Grouping machinery -/

/-- A filter and its complement partition a mapped sum. -/
theorem sum_map_filter_add {α : Type} (p : α → Bool) (l : List α)
    (f : α → Nat) :
    ((l.filter p).map f).sum + ((l.filter (fun a => !p a)).map f).sum
      = (l.map f).sum := by
  induction l with
  | nil => rfl
  | cons a l ih =>
    cases h : p a <;> simp [List.filter_cons, h] <;> omega

/-- Summing each group of a `groupby` over a duplicate-free key list that
covers every row recovers the ungrouped sum. -/
theorem groupSum_partition {κ : Type} [DecidableEq κ] (ks : List κ) :
    ∀ (rows : List Row) (key : Row → κ) (f : Row → Nat), ks.Nodup →
      (∀ r ∈ rows, key r ∈ ks) →
      (ks.map (fun k => groupSum rows key k f)).sum = (rows.map f).sum := by
  induction ks with
  | nil =>
    intro rows key f _ hcov
    cases rows with
    | nil => rfl
    | cons r rows =>
      exact absurd (hcov r (List.mem_cons_self r rows)) (List.not_mem_nil _)
  | cons k ks ih =>
    intro rows key f hnd hcov
    have hrest : (ks.map (fun k' =>
        groupSum rows key k' f)).sum = (ks.map (fun k' =>
        groupSum (rows.filter (fun r => !(key r = k))) key k' f)).sum := by
      apply congrArg
      apply List.map_congr_left
      intro k' hk'
      have hkk : k' ≠ k := by
        rintro rfl
        exact (List.nodup_cons.mp hnd).1 hk'
      unfold groupSum
      congr 1
      apply congrArg
      rw [List.filter_filter]
      apply List.filter_congr
      intro r _
      by_cases hrk : key r = k'
      · simp [hrk, hkk]
      · simp [hrk]
    have hcov' : ∀ r ∈ rows.filter (fun r => !(key r = k)), key r ∈ ks := by
      intro r hr
      rcases List.mem_filter.mp hr with ⟨hmem, hneq⟩
      rcases List.mem_cons.mp (hcov r hmem) with h | h
      · exact absurd h (by simpa using hneq)
      · exact h
    calc (List.map (fun k' => groupSum rows key k' f) (k :: ks)).sum
        = groupSum rows key k f
          + (ks.map (fun k' => groupSum rows key k' f)).sum := by
          simp
      _ = ((rows.filter (fun r => key r = k)).map f).sum
          + ((rows.filter (fun r => !(key r = k))).map f).sum := by
          rw [hrest, ih _ key f (List.nodup_cons.mp hnd).2 hcov']; rfl
      _ = (rows.map f).sum := sum_map_filter_add _ rows f

/-- Pointwise addition distributes over a mapped sum. -/
theorem sum_map_add {α : Type} (l : List α) (f g : α → Nat) :
    (l.map (fun a => f a + g a)).sum = (l.map f).sum + (l.map g).sum := by
  induction l with
  | nil => rfl
  | cons a l ih => simp [ih]; omega

/-- Swapping the order of a double mapped sum. -/
theorem sum_map_swap {α β : Type} (l₁ : List α) (l₂ : List β)
    (g : α → β → Nat) :
    (l₁.map (fun a => (l₂.map (g a)).sum)).sum
      = (l₂.map (fun b => (l₁.map (fun a => g a b)).sum)).sum := by
  induction l₁ with
  | nil => simp
  | cons a l₁ ih =>
    simp only [List.map_cons, List.sum_cons, ih, ← sum_map_add]

/-- Summing a group's aggregate over the selected columns equals the
group's aggregate of the per-row column sum. -/
theorem cols_groupSum_swap {κ : Type} [DecidableEq κ] (rows : List Row)
    (key : Row → κ) (k : κ) (cols : List String) :
    (cols.map (fun c => groupSum rows key k (fun r => ageVal r c))).sum
      = groupSum rows key k (rowSum cols) := by
  unfold groupSum rowSum
  rw [sum_map_swap cols (rows.filter (fun r => key r = k))
    (fun c r => ageVal r c)]

/-- Filtering a tagged duplicate-free key list at one of its members
keeps exactly that member's entry. -/
theorem filter_eq_single {κ β : Type} [DecidableEq κ] (m : κ) (f : κ → β)
    (ks : List κ) :
    ks.Nodup → m ∈ ks →
    (ks.map (fun k => (k, f k))).filter (fun x => x.1 = m) = [(m, f m)] := by
  induction ks with
  | nil => intro _ hm; cases hm
  | cons k ks ih =>
    intro hnd hm
    rcases List.nodup_cons.mp hnd with ⟨hk, hnd'⟩
    by_cases h : k = m
    · subst h
      have hnone : (ks.map (fun k' => (k', f k'))).filter
          (fun x => x.1 = k) = [] := by
        rw [List.filter_eq_nil_iff]
        intro x hx
        rcases List.mem_map.mp hx with ⟨k', hk', rfl⟩
        simp only [decide_eq_true_eq]
        intro he
        exact hk (he ▸ hk')
      simp [List.filter_cons, hnone]
    · have hm' : m ∈ ks := by
        rcases List.mem_cons.mp hm with h' | h'
        · exact absurd h'.symm h
        · exact h'
      simp only [List.map_cons, List.filter_cons]
      rw [if_neg (by simpa using h)]
      exact ih hnd' hm'

/-- Filtering a melted view at one key collapses the melt back to one row
per value column. -/
theorem melt_filter {κ β : Type} [DecidableEq κ] (cols : List String)
    (ks : List κ) (hnd : ks.Nodup) (m : κ) (hm : m ∈ ks)
    (f : String → κ → β) :
    ((cols.flatMap (fun c => ks.map (fun k => (k, f c k)))).filter
        (fun x => x.1 = m)).map (fun x => x.2)
      = cols.map (fun c => f c m) := by
  induction cols with
  | nil => rfl
  | cons c cols ih =>
    rw [List.flatMap_cons, List.filter_append, List.map_append,
      filter_eq_single m (fun k => f c k) ks hnd hm]
    simp [ih]

/-- The sorted deduplicated key list of a `groupby` has no duplicates. -/
theorem nodup_sort_dedup {α : Type} [DecidableEq α] (r : α → α → Prop)
    [DecidableRel r] (l : List α) :
    (List.insertionSort r l.dedup).Nodup :=
  ((List.perm_insertionSort r l.dedup).nodup_iff).mpr (List.nodup_dedup l)

/-- Membership in the sorted deduplicated key list. -/
theorem mem_sort_dedup {α : Type} [DecidableEq α] (r : α → α → Prop)
    [DecidableRel r] (l : List α) (x : α) :
    x ∈ List.insertionSort r l.dedup ↔ x ∈ l := by
  rw [List.Perm.mem_iff (List.perm_insertionSort r l.dedup),
    List.mem_dedup]

/-- Filtering a melted view at one key, without projecting away the key. -/
theorem melt_filter_eq {κ β : Type} [DecidableEq κ] (cols : List String)
    (ks : List κ) (hnd : ks.Nodup) (m : κ) (hm : m ∈ ks)
    (f : String → κ → β) :
    (cols.flatMap (fun c => ks.map (fun k => (k, f c k)))).filter
        (fun x => x.1 = m)
      = cols.map (fun c => (m, f c m)) := by
  induction cols with
  | nil => rfl
  | cons c cols ih =>
    rw [List.flatMap_cons, List.filter_append,
      filter_eq_single m (fun k => f c k) ks hnd hm, ih]
    rfl

/-- Congruence for `flatMap` over functions agreeing on the list. -/
theorem flatMap_congr {α β : Type} (l : List α) (f g : α → List β)
    (h : ∀ a ∈ l, f a = g a) : l.flatMap f = l.flatMap g := by
  induction l with
  | nil => rfl
  | cons a l ih =>
    rw [List.flatMap_cons, List.flatMap_cons, h a (by simp),
      ih (fun x hx => h x (by simp [hx]))]

/-- The sum of a flattened list of lists is the sum of the per-list sums. -/
theorem sum_flatMap {α : Type} (l : List α) (F : α → List Nat) :
    (l.flatMap F).sum = (l.map (fun a => (F a).sum)).sum := by
  induction l with
  | nil => rfl
  | cons a l ih => simp [List.flatMap_cons, ih]

/-- The month keys of a `groupby("month")` are duplicate-free. -/
theorem monthKeys_nodup (t : Table) : (monthKeys t).Nodup :=
  nodup_sort_dedup strLe (t.rows.map Row.month)

/-- Every row's month appears among the month keys. -/
theorem monthKeys_cover (t : Table) : ∀ r ∈ t.rows, r.month ∈ monthKeys t := by
  intro r hr
  rw [monthKeys, mem_sort_dedup]
  exact List.mem_map_of_mem Row.month hr

/-- The sub-territory keys of a `groupby(sub_col)` are duplicate-free. -/
theorem subKeys_nodup (t : Table) (key : Row → String) :
    (subKeys t key).Nodup :=
  nodup_sort_dedup strLe (t.rows.map key)

/-- Every row's sub-territory key appears among the sub-territory keys. -/
theorem subKeys_cover (t : Table) (key : Row → String) :
    ∀ r ∈ t.rows, key r ∈ subKeys t key := by
  intro r hr
  rw [subKeys, mem_sort_dedup]
  exact List.mem_map_of_mem key hr

/-- The date keys of `groupby("date")` are duplicate-free. -/
theorem dailyKeys_nodup (t : Table) : (dailyKeys t).Nodup :=
  nodup_sort_dedup Date.dle (t.rows.map Row.date)

/-- Every row's date appears among the date keys. -/
theorem dailyKeys_cover (t : Table) : ∀ r ∈ t.rows, r.date ∈ dailyKeys t := by
  intro r hr
  rw [dailyKeys, mem_sort_dedup]
  exact List.mem_map_of_mem Row.date hr

/-- The values of a melted per-column `groupby` sum to the ungrouped total
of the per-row column sums. -/
theorem melt_value_sum {κ : Type} [DecidableEq κ] (cols : List String)
    (ks : List κ) (rows : List Row) (key : Row → κ) (hnd : ks.Nodup)
    (hcov : ∀ r ∈ rows, key r ∈ ks) :
    (cols.flatMap (fun c => ks.map (fun k =>
        groupSum rows key k (fun r => ageVal r c)))).sum
      = (rows.map (rowSum cols)).sum := by
  rw [sum_flatMap,
    sum_map_swap cols ks (fun c k => groupSum rows key k (fun r => ageVal r c)),
    List.map_congr_left (fun k _ => cols_groupSum_swap rows key k cols)]
  exact groupSum_partition ks rows key (rowSum cols) hnd hcov

/-! ### C3 -/

/-- C3: filtering at National level returns the table unchanged, and
filtering at District level with state `S` and district `D` keeps exactly
the rows whose state is `S` and district is `D` (in their original
order). -/
theorem df_region_ok (t : Table) (S D : String) :
    df_region t .National S D = t
    ∧ (df_region t .District S D).rows.Sublist t.rows
    ∧ ∀ r : Row, r ∈ (df_region t .District S D).rows ↔
        (r ∈ t.rows ∧ r.state = S ∧ r.district = D) := by
  refine ⟨rfl, List.filter_sublist _, ?_⟩
  intro r
  simp [df_region, List.mem_filter]

/-! ### C4 -/

/-- C4: after loading, every row's `month` is the year-month string of its
parsed `date`, and rows whose date failed to parse are dropped: the
loaded table is the same as if they had been removed up front, so they
appear in no aggregation computed from it. -/
theorem load_data_ok (raw : List RawRow) :
    (∀ row ∈ load_data raw, row.month = monthKey row.date)
    ∧ load_data raw = load_data (raw.filter (fun r => r.rawDate.isSome))
    ∧ (load_data raw).length
        = (raw.filter (fun r => r.rawDate.isSome)).length := by
  refine ⟨?_, ?_, ?_⟩
  · intro row hrow
    rcases List.mem_filterMap.mp hrow with ⟨r, _, hmap⟩
    rcases Option.map_eq_some'.mp hmap with ⟨d, _, hrow'⟩
    subst hrow'
    rfl
  · induction raw with
    | nil => rfl
    | cons r raw ih =>
      cases h : r.rawDate with
      | none => simpa [load_data, List.filterMap_cons, List.filter_cons, h]
          using ih
      | some d => simpa [load_data, List.filterMap_cons, List.filter_cons, h]
          using ih
  · induction raw with
    | nil => rfl
    | cons r raw ih =>
      cases h : r.rawDate with
      | none => simpa [load_data, List.filterMap_cons, List.filter_cons, h]
          using ih
      | some d => simpa [load_data, List.filterMap_cons, List.filter_cons, h]
          using ih

/-! ### Example tables -/

/-- First row of the spec's end-to-end scenario. -/
def exRow1 : Row :=
  { date := ⟨2023, 1, 5⟩, month := "2023-01", state := "A", district := "X",
    pincode := "110001", age_0_5 := 10, age_5_17 := 20,
    age_18_greater := 30, extra := [] }

/-- Second row of the spec's end-to-end scenario. -/
def exRow2 : Row :=
  { date := ⟨2023, 1, 20⟩, month := "2023-01", state := "A", district := "Y",
    pincode := "110002", age_0_5 := 5, age_5_17 := 5,
    age_18_greater := 10, extra := [] }

/-- The column set of the example CSVs. -/
def exCols : List String :=
  ["date", "state", "district", "pincode",
   "age_0_5", "age_5_17", "age_18_greater"]

/-- The spec's end-to-end example table: one month, grand total 80. -/
def exTable : Table := ⟨exCols, [exRow1, exRow2]⟩

/-- A two-state table on which state "A" (alphabetically first) has the
smaller total: sub-territory totals order is B before A. -/
def cexTable : Table :=
  ⟨exCols,
    [{ date := ⟨2023, 1, 5⟩, month := "2023-01", state := "A",
       district := "X", pincode := "110001", age_0_5 := 5, age_5_17 := 5,
       age_18_greater := 10, extra := [] },
     { date := ⟨2023, 1, 20⟩, month := "2023-01", state := "B",
       district := "Y", pincode := "110002", age_0_5 := 10, age_5_17 := 20,
       age_18_greater := 30, extra := [] }]⟩

/-- A raw row whose date parses. -/
def exRawGood : RawRow :=
  { rawDate := some ⟨2023, 1, 5⟩, state := "A", district := "X",
    pincode := "110001", age_0_5 := 10, age_5_17 := 20,
    age_18_greater := 30, extra := [] }

/-- A raw row whose date failed to parse (coerced to `NaT`). -/
def exRawBad : RawRow :=
  { rawDate := none, state := "A", district := "Y", pincode := "110002",
    age_0_5 := 5, age_5_17 := 5, age_18_greater := 10, extra := [] }

/-- Witness for C4: the surviving loaded row got `month` = year-month of
its date, and dropping the unparseable row up front changes nothing. -/
theorem load_data_ok_witness :
    exRow1.month = monthKey exRow1.date
    ∧ load_data [exRawGood, exRawBad]
        = load_data ([exRawGood, exRawBad].filter
            (fun r => r.rawDate.isSome)) := by
  constructor
  · exact (load_data_ok [exRawGood, exRawBad]).1 exRow1 (by decide)
  · exact (load_data_ok [exRawGood, exRawBad]).2.1

/-! ### C6 -/

/-- C6: for every month of the monthly-total view, summing the
monthly-by-age view's values over that month's age groups gives the
monthly-total value. -/
theorem monthly_age_consistent (t : Table) :
    ∀ p ∈ monthly_total t,
      (((monthly_age t).filter (fun x => x.1 = p.1)).map
          (fun x => x.2.2)).sum = p.2 := by
  intro p hp
  rcases List.mem_map.mp hp with ⟨m, hm, rfl⟩
  show (((monthly_age t).filter (fun x => x.1 = m)).map
      (fun x => x.2.2)).sum
    = groupSum t.rows Row.month m (rowSum (availableCols t))
  have hmm : m ∈ monthKeys t := hm
  have h1 : ((monthly_age t).filter (fun x => x.1 = m)).map
      (fun x => x.2.2)
      = (((monthly_age t).filter (fun x => x.1 = m)).map
          (fun x => x.2)).map (fun y => y.2) := by
    rw [List.map_map]; rfl
  rw [h1, monthly_age,
    melt_filter_eq (availableCols t) (monthKeys t) (monthKeys_nodup t) m hmm
      (fun c k => (format_age_group c,
        groupSum t.rows Row.month k (fun r => ageVal r c))),
    List.map_map, List.map_map]
  exact cols_groupSum_swap t.rows Row.month m (availableCols t)

/-- Witness for C6 at the two-row example table. -/
theorem monthly_age_consistent_witness :
    (((monthly_age exTable).filter (fun x => x.1 = "2023-01")).map
        (fun x => x.2.2)).sum = 80 :=
  monthly_age_consistent exTable ("2023-01", 80) (by decide)

/-! ### C1 -/

/-- C1: the grand-total headline is the table-wide sum of the available
age columns halved and truncated, and no per-view aggregation is halved:
each of the five count views adds back up to the raw (unhalved) total,
and each percentage share is measured against raw counts. -/
theorem headline_halved_views_not (t : Table) (key : Row → String) :
    total_enrol_sum t = rawTotal t / 2
    ∧ 2 * total_enrol_sum t ≤ rawTotal t
    ∧ rawTotal t < 2 * total_enrol_sum t + 2
    ∧ ((monthly_total t).map (fun x => x.2)).sum = rawTotal t
    ∧ ((monthly_age t).map (fun x => x.2.2)).sum = rawTotal t
    ∧ ((sub_total t key).map (fun x => x.2)).sum = rawTotal t
    ∧ ((sub_age t key).map (fun x => x.2.2)).sum = rawTotal t
    ∧ ((dailyKeys t).map (fun d => perDateSum t d)).sum = rawTotal t
    ∧ ∀ m c q, pctShare t m c = some q →
        q * ((monthTotal t m : Nat) : ℚ)
          = 100 * ((groupSum t.rows Row.month m (fun r => ageVal r c)
              : Nat) : ℚ) := by
  refine ⟨rfl, ?_, ?_, ?_, ?_, ?_, ?_, ?_, ?_⟩
  · show 2 * (rawTotal t / 2) ≤ rawTotal t
    omega
  · show rawTotal t < 2 * (rawTotal t / 2) + 2
    omega
  · rw [monthly_total, List.map_map]
    exact groupSum_partition (monthKeys t) t.rows Row.month
      (rowSum (availableCols t)) (monthKeys_nodup t) (monthKeys_cover t)
  · rw [monthly_age, List.map_flatMap]
    have hcongr : ∀ c ∈ availableCols t,
        ((monthKeys t).map (fun m => (m, format_age_group c,
          groupSum t.rows Row.month m (fun r => ageVal r c)))).map
            (fun x => x.2.2)
        = (monthKeys t).map (fun m =>
            groupSum t.rows Row.month m (fun r => ageVal r c)) := by
      intro c _
      rw [List.map_map]; rfl
    rw [flatMap_congr _ _ _ hcongr]
    exact melt_value_sum (availableCols t) (monthKeys t) t.rows Row.month
      (monthKeys_nodup t) (monthKeys_cover t)
  · rw [sub_total]
    rw [((List.perm_insertionSort (fun a b => b.2 ≤ a.2)
      ((subKeys t key).map (fun s =>
        (s, groupSum t.rows key s (rowSum (availableCols t)))))).map
          (fun x => x.2)).sum_eq,
      List.map_map]
    exact groupSum_partition (subKeys t key) t.rows key
      (rowSum (availableCols t)) (subKeys_nodup t key) (subKeys_cover t key)
  · rw [sub_age, List.map_flatMap]
    have hcongr : ∀ c ∈ availableCols t,
        ((subKeys t key).map (fun s => (s, format_age_group c,
          groupSum t.rows key s (fun r => ageVal r c)))).map
            (fun x => x.2.2)
        = (subKeys t key).map (fun s =>
            groupSum t.rows key s (fun r => ageVal r c)) := by
      intro c _
      rw [List.map_map]; rfl
    rw [flatMap_congr _ _ _ hcongr]
    exact melt_value_sum (availableCols t) (subKeys t key) t.rows key
      (subKeys_nodup t key) (subKeys_cover t key)
  · exact groupSum_partition (dailyKeys t) t.rows Row.date
      (rowSum (availableCols t)) (dailyKeys_nodup t) (dailyKeys_cover t)
  · intro m c q hq
    unfold pctShare at hq
    by_cases h0 : monthTotal t m = 0
    · rw [if_pos h0] at hq
      cases hq
    · rw [if_neg h0] at hq
      have hT : ((monthTotal t m : Nat) : ℚ) ≠ 0 := by
        exact_mod_cast h0
      rw [← Option.some.inj hq]
      field_simp
      ring

/-- Witness for C1: the percentage clause applied at the example table
(month 2023-01 has raw total 80 and the 18+ bucket 40, a 50% share). -/
theorem headline_halved_views_not_witness :
    (50 : ℚ) * ((monthTotal exTable "2023-01" : Nat) : ℚ)
      = 100 * ((groupSum exTable.rows Row.month "2023-01"
          (fun r => ageVal r "age_18_greater") : Nat) : ℚ) :=
  (headline_halved_views_not exTable Row.state).2.2.2.2.2.2.2.2
    "2023-01" "age_18_greater" 50 (by
      have hT : monthTotal exTable "2023-01" = 80 := by decide
      have hv : groupSum exTable.rows Row.month "2023-01"
          (fun r => ageVal r "age_18_greater") = 40 := by decide
      rw [pctShare, if_neg (by rw [hT]; norm_num), hT, hv]
      norm_num)

/-! ### C7 -/

/-- C7: in the percentage-share view, for a month with nonzero total the
shares are all defined and sum to exactly 100; for a month with zero
total every share is NaN (`none`) — the division is guarded, never an
error. -/
theorem monthly_pct_ok (t : Table) :
    ∀ m ∈ monthKeys t,
      (monthTotal t m ≠ 0 →
          ((((monthly_pct t).filter (fun x => x.1 = m)).map
              (fun x => (x.2.2).getD 0)).sum = 100
            ∧ ∀ x ∈ (monthly_pct t).filter (fun x => x.1 = m),
                (x.2.2).isSome = true))
      ∧ (monthTotal t m = 0 →
          ∀ x ∈ (monthly_pct t).filter (fun x => x.1 = m),
            x.2.2 = none) := by
  intro m hm
  have hfe : (monthly_pct t).filter (fun x => x.1 = m)
      = (availableCols t).map (fun c =>
          (m, format_age_group c, pctShare t m c)) := by
    rw [monthly_pct]
    exact melt_filter_eq (availableCols t) (monthKeys t) (monthKeys_nodup t)
      m hm (fun c k => (format_age_group c, pctShare t k c))
  constructor
  · intro h0
    constructor
    · rw [hfe, List.map_map]
      have hsh : ∀ c ∈ availableCols t,
          ((fun x => (x.2.2).getD 0) ∘ (fun c =>
              (m, format_age_group c, pctShare t m c))) c
          = ((groupSum t.rows Row.month m (fun r => ageVal r c) : Nat) : ℚ)
              * (100 / ((monthTotal t m : Nat) : ℚ)) := by
        intro c _
        show (pctShare t m c).getD 0 = _
        rw [pctShare, if_neg h0]
        show ((groupSum t.rows Row.month m (fun r => ageVal r c) : Nat) : ℚ)
            / ((monthTotal t m : Nat) : ℚ) * 100 = _
        ring
      rw [List.map_congr_left hsh, List.sum_map_mul_right]
      have hnat : ((availableCols t).map (fun c =>
          groupSum t.rows Row.month m (fun r => ageVal r c))).sum
          = monthTotal t m :=
        cols_groupSum_swap t.rows Row.month m (availableCols t)
      have hT : ((monthTotal t m : Nat) : ℚ) ≠ 0 := by exact_mod_cast h0
      have hcast : ((availableCols t).map (fun c =>
          ((groupSum t.rows Row.month m (fun r => ageVal r c) : Nat)
            : ℚ))).sum = ((monthTotal t m : Nat) : ℚ) := by
        rw [show (availableCols t).map (fun c =>
            ((groupSum t.rows Row.month m (fun r => ageVal r c) : Nat) : ℚ))
          = ((availableCols t).map (fun c =>
              groupSum t.rows Row.month m (fun r => ageVal r c))).map
                (fun n => ((n : Nat) : ℚ)) from by rw [List.map_map]; rfl]
        rw [← Nat.cast_list_sum, hnat]
      rw [hcast]
      field_simp
    · intro x hx
      rw [hfe] at hx
      rcases List.mem_map.mp hx with ⟨c, _, rfl⟩
      show (pctShare t m c).isSome = true
      rw [pctShare, if_neg h0]
      rfl
  · intro h0 x hx
    rw [hfe] at hx
    rcases List.mem_map.mp hx with ⟨c, _, rfl⟩
    show pctShare t m c = none
    rw [pctShare, if_pos h0]

/-- Witness for C7 at the example table: month 2023-01 has total 80 and
its three shares sum to 100. -/
theorem monthly_pct_ok_witness :
    (((monthly_pct exTable).filter (fun x => x.1 = "2023-01")).map
        (fun x => (x.2.2).getD 0)).sum = 100 :=
  ((monthly_pct_ok exTable "2023-01" (by decide)).1 (by decide)).1

/-! ### Cumulative-sum lemmas -/

/-- The keys of `cumPairs` are those of its input series. -/
theorem cumPairs_map_fst {κ : Type} :
    ∀ (l : List (κ × Nat)) (acc : Nat),
      (cumPairs l acc).map (fun x => x.1) = l.map (fun x => x.1)
  | [], _ => rfl
  | (d, v) :: xs, acc => by
    simp [cumPairs, cumPairs_map_fst xs (acc + v)]

/-- Every running total in `cumPairs` is at least the accumulator. -/
theorem cumPairs_ge {κ : Type} :
    ∀ (l : List (κ × Nat)) (acc x : Nat),
      x ∈ (cumPairs l acc).map (fun p => p.2) → acc ≤ x
  | [], _, _, h => absurd h (List.not_mem_nil _)
  | (d, v) :: xs, acc, x, h => by
    rw [cumPairs, List.map_cons] at h
    rcases List.mem_cons.mp h with h | h
    · omega
    · have := cumPairs_ge xs (acc + v) x h
      omega

/-- The running totals of `cumPairs` are non-decreasing. -/
theorem cumPairs_chain {κ : Type} :
    ∀ (l : List (κ × Nat)) (acc : Nat),
      List.Chain' (fun a b => a ≤ b) ((cumPairs l acc).map (fun p => p.2))
  | [], _ => by simp [cumPairs]
  | (d, v) :: xs, acc => by
    rw [cumPairs, List.map_cons, List.chain'_cons']
    refine ⟨?_, cumPairs_chain xs (acc + v)⟩
    intro b hb
    exact cumPairs_ge xs (acc + v) b (List.mem_of_mem_head? hb)

/-- `getLast?` ignores the head when the tail is nonempty. -/
theorem getLast?_cons_ne {α : Type} (a : α) (l : List α) (h : l ≠ []) :
    (a :: l).getLast? = l.getLast? := by
  cases l with
  | nil => exact absurd rfl h
  | cons b l => exact List.getLast?_cons_cons

/-- The last running total of `cumPairs` is the accumulator plus the sum
of all the values. -/
theorem cumPairs_last {κ : Type} (l : List (κ × Nat)) :
    ∀ acc : Nat, l ≠ [] →
      ((cumPairs l acc).map (fun p => p.2)).getLast?
        = some (acc + (l.map (fun p => p.2)).sum) := by
  induction l with
  | nil => intro acc h; exact absurd rfl h
  | cons p xs ih =>
    intro acc _
    obtain ⟨d, v⟩ := p
    cases xs with
    | nil => simp [cumPairs]
    | cons y ys =>
      rw [cumPairs, List.map_cons,
        getLast?_cons_ne _ _ (by
          obtain ⟨y1, y2⟩ := y
          rw [cumPairs, List.map_cons]
          exact List.cons_ne_nil _ _),
        ih (acc + v) (List.cons_ne_nil _ _)]
      congr 1
      simp only [List.map_cons, List.sum_cons]
      omega

/-- The date keys of the cumulative view are strictly ascending. -/
theorem dailyKeys_chain (t : Table) : List.Chain' Date.dlt (dailyKeys t) := by
  have hs : List.Sorted Date.dle (dailyKeys t) :=
    List.sorted_insertionSort Date.dle _
  have hnd : (dailyKeys t).Nodup := dailyKeys_nodup t
  exact (List.pairwise_and_iff.mpr ⟨hs, hnd⟩).chain'

/-! ### C8 -/

/-- C8: the cumulative daily view is computed over strictly ascending
dates, and its running totals are monotonically non-decreasing (age
values are counts, hence non-negative by construction). -/
theorem daily_total_sorted_monotone (t : Table) :
    List.Chain' Date.dlt ((daily_total t).map (fun x => x.1))
    ∧ List.Chain' (fun a b => a ≤ b)
        ((daily_total t).map (fun x => x.2)) := by
  constructor
  · have h1 : (daily_total t).map (fun x => x.1) = dailyKeys t := by
      rw [daily_total, cumPairs_map_fst, List.map_map]
      exact List.map_id _
    rw [h1]
    exact dailyKeys_chain t
  · rw [daily_total]
    exact cumPairs_chain _ 0

/-! ### C10 -/

/-- C10: for a nonempty table with at least one available age column, the
final value of the cumulative daily view is exactly the raw total the
headline halves, so the headline is the truncated half of the last
cumulative point. -/
theorem daily_last_headline (t : Table) (hrows : t.rows ≠ [])
    (hcols : availableCols t ≠ []) :
    ((daily_total t).map (fun x => x.2)).getLast? = some (rawTotal t)
    ∧ total_enrol_sum t = rawTotal t / 2 := by
  refine ⟨?_, rfl⟩
  have hne : dailyKeys t ≠ [] := by
    intro h
    have hp := List.perm_insertionSort Date.dle ((t.rows.map Row.date).dedup)
    rw [dailyKeys] at h
    rw [h] at hp
    have h2 := hp.symm.eq_nil
    rw [List.dedup_eq_nil] at h2
    exact hrows (List.map_eq_nil_iff.mp h2)
  rw [daily_total, cumPairs_last _ 0 (by
    intro h
    exact hne (List.map_eq_nil_iff.mp h))]
  rw [List.map_map]
  have hsum : ((dailyKeys t).map ((fun p => p.2) ∘
      (fun d => (d, perDateSum t d)))).sum = rawTotal t :=
    groupSum_partition (dailyKeys t) t.rows Row.date
      (rowSum (availableCols t)) (dailyKeys_nodup t) (dailyKeys_cover t)
  rw [hsum]
  simp

/-- Witness for C10 at the example table: the curve ends at 80 and the
headline is 40. -/
theorem daily_last_headline_witness :
    ((daily_total exTable).map (fun x => x.2)).getLast? = some 80
    ∧ total_enrol_sum exTable = 40 := by
  have h := daily_last_headline exTable (by decide) (by decide)
  refine ⟨?_, ?_⟩
  · rw [h.1]
    decide
  · rw [h.2]
    decide

/-! ### C2 -/

/-- C2 (counterexample): on a two-state table where the alphabetically
first state "A" has the smaller total, the code's sub-territory-by-age
view is not ordered by the sub-territory-total ordering: `sub_total`
lists "B" first, while `sub_age` is laid out age-column-first with keys
ascending, starting at "A". -/
theorem sub_age_order_cex :
    sub_age cexTable Row.state ≠ sub_age_claimed cexTable Row.state
    ∧ (sub_total cexTable Row.state).map (fun x => x.1) = ["B", "A"]
    ∧ (sub_age cexTable Row.state).map (fun x => x.1)
        = ["A", "B", "A", "B", "A", "B"] :=
  ⟨by decide, by decide, by decide⟩

/-- C2 (amended): in the sub-territory-by-age view the age column is the
primary category (in canonical column order); within each age block the
sub-territory keys appear in ascending key order — the `groupby` order —
not in the descending-by-total order of the sub-territory-total view,
though both views range over exactly the same keys. -/
theorem sub_age_order (t : Table) (key : Row → String) :
    ((sub_age t key).map (fun x => x.1))
      = (availableCols t).flatMap (fun _ => subKeys t key)
    ∧ List.Sorted strLe (subKeys t key)
    ∧ ((sub_total t key).map (fun x => x.1)).Perm (subKeys t key) := by
  refine ⟨?_, List.sorted_insertionSort strLe _, ?_⟩
  · rw [sub_age, List.map_flatMap]
    apply flatMap_congr
    intro c _
    rw [List.map_map]
    exact List.map_id _
  · have hperm := (List.perm_insertionSort (fun a b => b.2 ≤ a.2)
      ((subKeys t key).map (fun s =>
        (s, groupSum t.rows key s (rowSum (availableCols t)))))).map
        (fun x => x.1)
    rw [sub_total]
    have hid : ((subKeys t key).map (fun s =>
        (s, groupSum t.rows key s (rowSum (availableCols t))))).map
          (fun x => x.1) = subKeys t key := by
      rw [List.map_map]
      exact List.map_id _
    rw [hid] at hperm
    exact hperm

/-! ### Extra-column invariance (C5) -/

/-- Rewriting `extra` does not change a canonical age bucket. -/
theorem ageVal_extra (r : Row) (e : List (String × Nat)) (c : String)
    (hc : c ∈ age_cols) : ageVal { r with extra := e } c = ageVal r c := by
  simp only [age_cols, List.mem_cons, List.not_mem_nil, or_false] at hc
  rcases hc with rfl | rfl | rfl <;> rfl

/-- Every available column is canonical. -/
theorem avail_sub_age_cols (t : Table) :
    ∀ c ∈ availableCols t, c ∈ age_cols := by
  intro c hc
  exact (List.mem_filter.mp hc).1

/-- Rewriting `extra` does not change a row sum over canonical columns. -/
theorem rowSum_extra (cols : List String) (hcols : ∀ c ∈ cols, c ∈ age_cols)
    (r : Row) (e : List (String × Nat)) :
    rowSum cols { r with extra := e } = rowSum cols r := by
  unfold rowSum
  apply congrArg
  exact List.map_congr_left (fun c hc => ageVal_extra r e c (hcols c hc))

/-- Rewriting `extra` changes no group aggregate whose key and value
functions ignore `extra`. -/
theorem groupSum_mapExtra {κ : Type} [DecidableEq κ] (rows : List Row)
    (g : Row → List (String × Nat)) (key : Row → κ) (k : κ) (f : Row → Nat)
    (hkey : ∀ r, key { r with extra := g r } = key r)
    (hf : ∀ r, f { r with extra := g r } = f r) :
    groupSum (rows.map (fun r => { r with extra := g r })) key k f
      = groupSum rows key k f := by
  unfold groupSum
  rw [List.filter_map, List.map_map,
    List.filter_congr (fun r _ => by
      show decide (key { r with extra := g r } = k) = decide (key r = k)
      rw [hkey r])]
  apply congrArg
  exact List.map_congr_left (fun r _ => hf r)

/-- Rewriting `extra` leaves any `extra`-blind key column unchanged. -/
theorem keys_mapExtra {κ : Type} (rows : List Row)
    (g : Row → List (String × Nat)) (key : Row → κ)
    (hkey : ∀ r, key { r with extra := g r } = key r) :
    (rows.map (fun r => { r with extra := g r })).map key = rows.map key := by
  rw [List.map_map]
  exact List.map_congr_left (fun r _ => hkey r)

/-- The month keys ignore `extra`. -/
theorem monthKeys_mapExtra (t : Table) (g : Row → List (String × Nat)) :
    monthKeys (mapExtra g t) = monthKeys t := by
  rw [monthKeys, monthKeys,
    show (mapExtra g t).rows
      = t.rows.map (fun r => { r with extra := g r }) from rfl,
    keys_mapExtra t.rows g Row.month (fun r => rfl)]

/-- The sub-territory keys ignore `extra`. -/
theorem subKeys_mapExtra (t : Table) (key : Row → String)
    (g : Row → List (String × Nat))
    (hkey : ∀ r, key { r with extra := g r } = key r) :
    subKeys (mapExtra g t) key = subKeys t key := by
  rw [subKeys, subKeys,
    show (mapExtra g t).rows
      = t.rows.map (fun r => { r with extra := g r }) from rfl,
    keys_mapExtra t.rows g key hkey]

/-- The date keys ignore `extra`. -/
theorem dailyKeys_mapExtra (t : Table) (g : Row → List (String × Nat)) :
    dailyKeys (mapExtra g t) = dailyKeys t := by
  rw [dailyKeys, dailyKeys,
    show (mapExtra g t).rows
      = t.rows.map (fun r => { r with extra := g r }) from rfl,
    keys_mapExtra t.rows g Row.date (fun r => rfl)]

/-- The monthly-total view ignores `extra`. -/
theorem monthly_total_mapExtra (t : Table) (g : Row → List (String × Nat)) :
    monthly_total (mapExtra g t) = monthly_total t := by
  rw [monthly_total, monthly_total, monthKeys_mapExtra]
  apply List.map_congr_left
  intro m _
  have h := groupSum_mapExtra t.rows g Row.month m
    (rowSum (availableCols t)) (fun r => rfl)
    (fun r => rowSum_extra (availableCols t) (avail_sub_age_cols t) r (g r))
  show (m, groupSum (t.rows.map (fun r => { r with extra := g r }))
      Row.month m (rowSum (availableCols t))) = _
  rw [h]

/-- The monthly-by-age view ignores `extra`. -/
theorem monthly_age_mapExtra (t : Table) (g : Row → List (String × Nat)) :
    monthly_age (mapExtra g t) = monthly_age t := by
  rw [monthly_age, monthly_age, monthKeys_mapExtra]
  apply flatMap_congr
  intro c hc
  apply List.map_congr_left
  intro m _
  have h := groupSum_mapExtra t.rows g Row.month m (fun r => ageVal r c)
    (fun r => rfl)
    (fun r => ageVal_extra r (g r) c (avail_sub_age_cols t c hc))
  show (m, format_age_group c,
      groupSum (t.rows.map (fun r => { r with extra := g r })) Row.month m
        (fun r => ageVal r c)) = _
  rw [h]

/-- The sub-territory-total view ignores `extra`. -/
theorem sub_total_mapExtra (t : Table) (key : Row → String)
    (g : Row → List (String × Nat))
    (hkey : ∀ r, key { r with extra := g r } = key r) :
    sub_total (mapExtra g t) key = sub_total t key := by
  rw [sub_total, sub_total, subKeys_mapExtra t key g hkey]
  apply congrArg
  apply List.map_congr_left
  intro s _
  have h := groupSum_mapExtra t.rows g key s (rowSum (availableCols t)) hkey
    (fun r => rowSum_extra (availableCols t) (avail_sub_age_cols t) r (g r))
  show (s, groupSum (t.rows.map (fun r => { r with extra := g r })) key s
      (rowSum (availableCols t))) = _
  rw [h]

/-- The sub-territory-by-age view ignores `extra`. -/
theorem sub_age_mapExtra (t : Table) (key : Row → String)
    (g : Row → List (String × Nat))
    (hkey : ∀ r, key { r with extra := g r } = key r) :
    sub_age (mapExtra g t) key = sub_age t key := by
  rw [sub_age, sub_age, subKeys_mapExtra t key g hkey]
  apply flatMap_congr
  intro c hc
  apply List.map_congr_left
  intro s _
  have h := groupSum_mapExtra t.rows g key s (fun r => ageVal r c) hkey
    (fun r => ageVal_extra r (g r) c (avail_sub_age_cols t c hc))
  show (s, format_age_group c,
      groupSum (t.rows.map (fun r => { r with extra := g r })) key s
        (fun r => ageVal r c)) = _
  rw [h]

/-- The cumulative daily view ignores `extra`. -/
theorem daily_total_mapExtra (t : Table) (g : Row → List (String × Nat)) :
    daily_total (mapExtra g t) = daily_total t := by
  rw [daily_total, daily_total, dailyKeys_mapExtra]
  apply congrArg (fun l => cumPairs l 0)
  apply List.map_congr_left
  intro d _
  have h := groupSum_mapExtra t.rows g Row.date d
    (rowSum (availableCols t)) (fun r => rfl)
    (fun r => rowSum_extra (availableCols t) (avail_sub_age_cols t) r (g r))
  show (d, groupSum (t.rows.map (fun r => { r with extra := g r }))
      Row.date d (rowSum (availableCols t))) = _
  rw [h]
  rfl

/-- The month row totals of the share view ignore `extra`. -/
theorem monthTotal_mapExtra (t : Table) (g : Row → List (String × Nat))
    (m : String) : monthTotal (mapExtra g t) m = monthTotal t m := by
  have h := groupSum_mapExtra t.rows g Row.month m
    (rowSum (availableCols t)) (fun r => rfl)
    (fun r => rowSum_extra (availableCols t) (avail_sub_age_cols t) r (g r))
  show groupSum (t.rows.map (fun r => { r with extra := g r })) Row.month m
      (rowSum (availableCols t)) = _
  rw [h]
  rfl

/-- A percentage-share cell at a canonical column ignores `extra`. -/
theorem pctShare_mapExtra (t : Table) (g : Row → List (String × Nat))
    (m c : String) (hc : c ∈ age_cols) :
    pctShare (mapExtra g t) m c = pctShare t m c := by
  rw [pctShare, pctShare, monthTotal_mapExtra]
  have h := groupSum_mapExtra t.rows g Row.month m (fun r => ageVal r c)
    (fun r => rfl) (fun r => ageVal_extra r (g r) c hc)
  by_cases h0 : monthTotal t m = 0
  · rw [if_pos h0, if_pos h0]
  · rw [if_neg h0, if_neg h0]
    show some ((((groupSum (t.rows.map (fun r => { r with extra := g r }))
        Row.month m (fun r => ageVal r c)) : Nat) : ℚ)
          / ((monthTotal t m : Nat) : ℚ) * 100) = _
    rw [h]

/-- The percentage-share view ignores `extra`. -/
theorem monthly_pct_mapExtra (t : Table) (g : Row → List (String × Nat)) :
    monthly_pct (mapExtra g t) = monthly_pct t := by
  rw [monthly_pct, monthly_pct, monthKeys_mapExtra]
  apply flatMap_congr
  intro c hc
  apply List.map_congr_left
  intro m _
  rw [show pctShare (mapExtra g t) m c = pctShare t m c from
    pctShare_mapExtra t g m c (avail_sub_age_cols t c hc)]

/-- The raw total ignores `extra`. -/
theorem rawTotal_mapExtra (t : Table) (g : Row → List (String × Nat)) :
    rawTotal (mapExtra g t) = rawTotal t := by
  rw [rawTotal, rawTotal]
  show ((t.rows.map (fun r => { r with extra := g r })).map
      (rowSum (availableCols t))).sum = _
  rw [List.map_map]
  apply congrArg
  exact List.map_congr_left (fun r _ =>
    rowSum_extra (availableCols t) (avail_sub_age_cols t) r (g r))

/-- The `sub_col` key function ignores `extra`. -/
theorem subColKey_extra (level : Level) (g : Row → List (String × Nat)) :
    ∀ r, subColKey level { r with extra := g r } = subColKey level r := by
  intro r
  cases level <;> rfl

/-! ### C5 -/

/-- C5: the aggregation stage fails with `MissingColumns` exactly when no
canonical age column is present (fatal to all six views at once); the
available columns are precisely the canonical triple intersected with
the table's columns; and rewriting every row's other-named columns
changes no view — only the canonical columns enter any total. -/
theorem aggregateAll_ok (t : Table) (level : Level) :
    (aggregateAll t level = .error .MissingColumns ↔ availableCols t = [])
    ∧ (∀ c ∈ availableCols t, c ∈ age_cols ∧ c ∈ t.cols)
    ∧ (∀ c ∈ age_cols, c ∈ t.cols → c ∈ availableCols t)
    ∧ ∀ g : Row → List (String × Nat),
        aggregateAll (mapExtra g t) level = aggregateAll t level := by
  refine ⟨?_, ?_, ?_, ?_⟩
  · rw [aggregateAll]
    by_cases h : availableCols t = []
    · simp [h]
    · simp [h]
  · intro c hc
    have h := List.mem_filter.mp hc
    exact ⟨h.1, by simpa using h.2⟩
  · intro c hc hmem
    exact List.mem_filter.mpr ⟨hc, by simpa using hmem⟩
  · intro g
    rw [aggregateAll, aggregateAll]
    by_cases h : availableCols t = []
    · have hmap : availableCols (mapExtra g t) = [] := h
      rw [if_pos hmap, if_pos h]
    · have hmap : ¬ availableCols (mapExtra g t) = [] := h
      rw [if_neg hmap, if_neg h]
      have h1 : total_enrol_sum (mapExtra g t) = total_enrol_sum t := by
        rw [total_enrol_sum, total_enrol_sum, rawTotal_mapExtra]
      rw [h1, monthly_total_mapExtra, monthly_age_mapExtra,
        sub_total_mapExtra t (subColKey level) g (subColKey_extra level g),
        sub_age_mapExtra t (subColKey level) g (subColKey_extra level g),
        daily_total_mapExtra, monthly_pct_mapExtra]

/-- Witness for C5: a canonical column is available in the example table,
and rewriting other-named columns does not change the aggregation
output. -/
theorem aggregateAll_ok_witness :
    ("age_0_5" ∈ age_cols ∧ "age_0_5" ∈ exTable.cols)
    ∧ aggregateAll (mapExtra (fun _ => [("bio_age_5_17", 999)]) exTable)
        Level.National = aggregateAll exTable Level.National := by
  constructor
  · exact (aggregateAll_ok exTable Level.National).2.1 "age_0_5" (by decide)
  · exact (aggregateAll_ok exTable Level.National).2.2.2
      (fun _ => [("bio_age_5_17", 999)])

end Enrol
